import Mathlib

/- Shallow embedding of the `maps` module of the repository's shared grid
library (`src/lib.rs`).  Machine integers (`i32`, `usize`) are modelled by
`Int` and `Nat`: none of the verified properties involve wrap-around, and the
grids the claims range over are far below the 32-bit limits.  A Rust panic
(out-of-range `Vec` indexing, `Option::expect`) is modelled by an
`Option`-valued function returning `none`, or by a dedicated error
constructor where a richer result type is needed. -/

/-- `pub struct Bounds(pub usize, pub usize);` — width and height. -/
structure Bounds where
  w : Nat
  h : Nat
  deriving DecidableEq, Repr

/-- `pub struct Position(pub i32, pub i32);` — a possibly out-of-bounds
coordinate. -/
structure Position where
  x : Int
  y : Int
  deriving DecidableEq, Repr

/-- `pub struct ValidPosition(pub usize, pub usize);` — a coordinate that has
been bounds-checked. -/
structure ValidPosition where
  x : Nat
  y : Nat
  deriving DecidableEq, Repr

/-- `pub enum Direction { UP, RIGHT, DOWN, LEFT }`. -/
inductive Direction where
  | UP
  | RIGHT
  | DOWN
  | LEFT
  deriving DecidableEq, Repr

/-- `impl From<ValidPosition> for Position`: cast both coordinates to the
signed type. -/
def ValidPosition.toPosition (p : ValidPosition) : Position :=
  ⟨(p.x : Int), (p.y : Int)⟩

/-- `Position::in_bounds`: checks `self.0 >= 0 && self.1 >= 0 &&
self.0 < bounds.0 && self.1 < bounds.1` and wraps the coordinates as a
`ValidPosition` (the `as usize` casts become `Int.toNat`). -/
def Position.in_bounds (p : Position) (b : Bounds) : Option ValidPosition :=
  if 0 ≤ p.x ∧ 0 ≤ p.y ∧ p.x < (b.w : Int) ∧ p.y < (b.h : Int) then
    some ⟨p.x.toNat, p.y.toNat⟩
  else
    none

/-- `Position::neighbours`: the four axis-aligned neighbours, in the source's
order `(+x, -x, +y, -y)`. -/
def Position.neighbours (p : Position) : List Position :=
  [⟨p.x + 1, p.y⟩, ⟨p.x - 1, p.y⟩, ⟨p.x, p.y + 1⟩, ⟨p.x, p.y - 1⟩]

/-- `Position::valid_neighbours`: `neighbours` filtered through `in_bounds`,
collected into a set (`HashSet` becomes `Finset`). -/
def Position.valid_neighbours (p : Position) (b : Bounds) : Finset ValidPosition :=
  (p.neighbours.filterMap fun n => n.in_bounds b).toFinset

/-- `ValidPosition::valid_neighbours`: converts `self` to a `Position` and
runs the same pipeline. -/
def ValidPosition.valid_neighbours (p : ValidPosition) (b : Bounds) : Finset ValidPosition :=
  (p.toPosition.neighbours.filterMap fun n => n.in_bounds b).toFinset

/-- `Direction::turned_right`. -/
def Direction.turned_right : Direction → Direction
  | .UP => .RIGHT
  | .RIGHT => .DOWN
  | .DOWN => .LEFT
  | .LEFT => .UP

/-- `Direction::turned_left`. -/
def Direction.turned_left : Direction → Direction
  | .UP => .LEFT
  | .LEFT => .DOWN
  | .DOWN => .RIGHT
  | .RIGHT => .UP

/-- `Direction::turned_around`. -/
def Direction.turned_around : Direction → Direction
  | .UP => .DOWN
  | .RIGHT => .LEFT
  | .DOWN => .UP
  | .LEFT => .RIGHT

/-- `Position::step`: UP decreases `y`, DOWN increases it, RIGHT increases
`x`, LEFT decreases it. -/
def Position.step (p : Position) (d : Direction) : Position :=
  match d with
  | .UP => ⟨p.x, p.y - 1⟩
  | .RIGHT => ⟨p.x + 1, p.y⟩
  | .DOWN => ⟨p.x, p.y + 1⟩
  | .LEFT => ⟨p.x - 1, p.y⟩

/-- Characterisation of a successful bounds check. -/
theorem in_bounds_some_iff (px py : Int) (b : Bounds) (qx qy : Nat) :
    Position.in_bounds ⟨px, py⟩ b = some ⟨qx, qy⟩ ↔
      0 ≤ px ∧ 0 ≤ py ∧ px < (b.w : Int) ∧ py < (b.h : Int) ∧
        (qx : Int) = px ∧ (qy : Int) = py := by
  unfold Position.in_bounds
  dsimp only
  split_ifs with hc
  · simp only [Option.some.injEq, ValidPosition.mk.injEq]
    omega
  · constructor
    · intro h
      simp at h
    · intro h
      exfalso
      omega

/-- C3: `in_bounds` returns `Some(ValidPosition(x,y))` exactly when
`0 <= x < w` and `0 <= y < h`, and `None` otherwise; being `Option`-valued
it raises no error on out-of-bounds input. -/
theorem in_bounds_characterisation (w h : Nat) (x y : Int) :
    Position.in_bounds ⟨x, y⟩ ⟨w, h⟩ =
      if 0 ≤ x ∧ x < (w : Int) ∧ 0 ≤ y ∧ y < (h : Int) then
        some ⟨x.toNat, y.toNat⟩
      else
        none := by
  unfold Position.in_bounds
  dsimp only
  split_ifs with h1 h2 <;> first | rfl | (exfalso; omega)

/-- C4: the four rotation identities on `Direction`. -/
theorem direction_rotation_algebra (d : Direction) :
    d.turned_right.turned_left = d ∧
    d.turned_around.turned_around = d ∧
    d.turned_right.turned_right.turned_right.turned_right = d ∧
    d.turned_around = d.turned_right.turned_right := by
  cases d <;> exact ⟨rfl, rfl, rfl, rfl⟩

/-- C6: `ValidPosition::valid_neighbours` and `Position::valid_neighbours`
agree after the `From` conversion. -/
theorem valid_neighbours_delegates (p : ValidPosition) (b : Bounds) :
    p.valid_neighbours b = p.toPosition.valid_neighbours b := rfl

/-- A successful bounds check determines the input coordinates. -/
theorem in_bounds_inj (p1 p2 : Position) (b : Bounds) (q : ValidPosition)
    (h1 : p1.in_bounds b = some q) (h2 : p2.in_bounds b = some q) : p1 = p2 := by
  obtain ⟨ax, ay⟩ := p1
  obtain ⟨bx, cy⟩ := p2
  obtain ⟨qx, qy⟩ := q
  rw [in_bounds_some_iff] at h1 h2
  simp only [Position.mk.injEq]
  omega

/-- `step` is injective in the direction, for a fixed base position. -/
theorem step_inj (p : Position) (d1 d2 : Direction) (h : p.step d1 = p.step d2) :
    d1 = d2 := by
  cases d1 <;> cases d2 <;>
    simp only [Position.step, Position.mk.injEq] at h <;> first | rfl | omega

/-- C5: a valid-neighbour set has at most four elements (hence cardinality
between 0 and 4), and each of its members is obtained from exactly one of the
four directional steps, validated by `in_bounds`. -/
theorem valid_neighbours_spec (p : ValidPosition) (b : Bounds) :
    (p.valid_neighbours b).card ≤ 4 ∧
    ∀ q ∈ p.valid_neighbours b,
      ∃! d : Direction, (p.toPosition.step d).in_bounds b = some q := by
  constructor
  · refine le_trans (List.toFinset_card_le _) (le_trans (List.length_filterMap_le _ _) ?_)
    simp [Position.neighbours]
  · intro q hq
    rw [ValidPosition.valid_neighbours, List.mem_toFinset, List.mem_filterMap] at hq
    obtain ⟨n, hn, hb⟩ := hq
    simp only [Position.neighbours, ValidPosition.toPosition, List.mem_cons,
      List.mem_singleton, List.not_mem_nil, or_false] at hn
    rcases hn with rfl | rfl | rfl | rfl
    · exact ⟨Direction.RIGHT, hb,
        fun d hd => step_inj _ _ _ (in_bounds_inj _ _ _ _ hd hb)⟩
    · exact ⟨Direction.LEFT, hb,
        fun d hd => step_inj _ _ _ (in_bounds_inj _ _ _ _ hd hb)⟩
    · exact ⟨Direction.DOWN, hb,
        fun d hd => step_inj _ _ _ (in_bounds_inj _ _ _ _ hd hb)⟩
    · exact ⟨Direction.UP, hb,
        fun d hd => step_inj _ _ _ (in_bounds_inj _ _ _ _ hd hb)⟩

/-- Witness for C5 at a concrete position and bounds. -/
theorem valid_neighbours_spec_witness :
    (ValidPosition.valid_neighbours ⟨1, 1⟩ ⟨3, 3⟩).card ≤ 4 ∧
    ∃! d : Direction,
      ((ValidPosition.toPosition ⟨1, 1⟩).step d).in_bounds ⟨3, 3⟩ = some ⟨2, 1⟩ :=
  ⟨(valid_neighbours_spec ⟨1, 1⟩ ⟨3, 3⟩).1,
   (valid_neighbours_spec ⟨1, 1⟩ ⟨3, 3⟩).2 ⟨2, 1⟩ (by decide)⟩

/-- `pub struct Map2D<T> { data: Vec<Vec<T>>, bounds: Bounds }`. -/
structure Map2D (T : Type) where
  data : List (List T)
  bounds : Bounds
  deriving DecidableEq

variable {T : Type} [DecidableEq T]

/-- `Map2D::value`: `&self.data[pos.0 as usize][pos.1 as usize]` — the outer
vector is indexed by the x coordinate and the inner one by y, exactly as in
the source; `none` models the index-out-of-range panic. -/
def Map2D.value (m : Map2D T) (pos : ValidPosition) : Option T :=
  match m.data[pos.x]? with
  | none => none
  | some row => row[pos.y]?

/-- `Map2D::position_iter`: `(0..bounds.0).cartesian_product(0..bounds.1)`,
x outer and y inner. -/
def Map2D.position_iter (m : Map2D T) : List ValidPosition :=
  (List.range m.bounds.w).flatMap fun x => (List.range m.bounds.h).map fun y => ⟨x, y⟩

/-- `Iterator::filter` with a predicate that can panic: the first `none`
aborts the whole traversal, matching panic propagation. -/
def filterAbort (pred : ValidPosition → Option Bool) :
    List ValidPosition → Option (List ValidPosition)
  | [] => some []
  | p :: ps =>
    match pred p with
    | none => none
    | some keep =>
      match filterAbort pred ps with
      | none => none
      | some l => some (if keep then p :: l else l)

/-- `Map2D::find`: filter `position_iter` by `value(pos) == value`, collected
into a set. -/
def Map2D.find (m : Map2D T) (v : T) : Option (Finset ValidPosition) :=
  (filterAbort (fun p => (m.value p).map fun w => decide (w = v)) m.position_iter).map
    List.toFinset

/-- The list carried by `valid_neighbours` before it is collected into a
set; `in_bounds` is injective on the four distinct neighbour positions, so
the list is duplicate-free and represents the `HashSet` the source iterates
over in `contiguous_region`. -/
def validNeighboursList (p : ValidPosition) (b : Bounds) : List ValidPosition :=
  p.toPosition.neighbours.filterMap fun n => n.in_bounds b

/-- The body of the `for neib in next_pos.valid_neighbours(..)` loop: keep
the neighbours whose value equals the target, aborting (panic) as soon as a
`value` lookup indexes out of range. -/
def collectEqual (m : Map2D T) (target : T) : List ValidPosition → Option (List ValidPosition)
  | [] => some []
  | q :: qs =>
    match m.value q with
    | none => none
    | some v =>
      match collectEqual m target qs with
      | none => none
      | some l => some (if v = target then q :: l else l)

/-- Outcome of the breadth-first search loop of `contiguous_region`:
`fuelOut` is reported when the step budget given to the interpreter runs
out (the theorems below show a budget of `bfsFuel` never does), `indexErr`
models an index-out-of-range panic inside `Map2D::value`, and `done`
carries the visited set (as a duplicate-free list) together with the number
of expansions performed. -/
inductive BfsOut where
  | fuelOut
  | indexErr
  | done (visited : List ValidPosition) (expansions : Nat)
  deriving DecidableEq

/-- The `while let Some(next_pos) = to_visit.pop_front()` loop of
`contiguous_region`: skip an already-visited position, otherwise record it
and enqueue its equal-valued valid neighbours. -/
def bfsAux (m : Map2D T) (target : T) :
    Nat → List ValidPosition → List ValidPosition → Nat → BfsOut
  | 0, _, _, _ => .fuelOut
  | fuel + 1, visited, queue, exp =>
    match queue with
    | [] => .done visited exp
    | p :: rest =>
      if p ∈ visited then bfsAux m target fuel visited rest exp
      else
        match collectEqual m target (validNeighboursList p m.bounds) with
        | none => .indexErr
        | some ns => bfsAux m target fuel (p :: visited) (rest ++ ns) (exp + 1)

/-- Step budget that is always sufficient: one pop per queue element, at
most four pushes per expansion, at most `w * h` expansions. -/
def bfsFuel (b : Bounds) : Nat :=
  4 * (b.w * b.h) + 2

/-- `Map2D::contiguous_region`: look up the target value at `start` (this
lookup can already panic), then run the search seeded with `start`. -/
def Map2D.contiguous_region (m : Map2D T) (start : ValidPosition) : BfsOut :=
  match m.value start with
  | none => .indexErr
  | some target => bfsAux m target (bfsFuel m.bounds) [] [start] 0

/-- `impl HasCharConverter for char`: the identity, never fails. -/
def charConvert (c : Char) : Option Char :=
  some c

/-- `impl HasCharConverter for u32`: `c.to_digit(10).expect(..)` — `none`
models the panic on a non-decimal-digit character. -/
def u32Convert (c : Char) : Option Nat :=
  if c.isDigit then some (c.toNat - 48) else none

/-- One line of `impl From<Lines<B>> for Map2D<T>`:
`line.chars().map(|c| T::convert(c)).collect()`, with a failing conversion
aborting the whole construction. -/
def convertLine (conv : Char → Option T) : List Char → Option (List T)
  | [] => some []
  | c :: cs =>
    match conv c with
    | none => none
    | some v =>
      match convertLine conv cs with
      | none => none
      | some l => some (v :: l)

/-- The outer `lines.map(..).collect_vec()` of the `Map2D` constructor. -/
def convertData (conv : Char → Option T) : List String → Option (List (List T))
  | [] => some []
  | line :: rest =>
    match convertLine conv line.toList with
    | none => none
    | some row =>
      match convertData conv rest with
      | none => none
      | some rows => some (row :: rows)

/-- `impl From<Lines<B>> for Map2D<T>`: convert every line, then derive
`Bounds(data[0].len(), data.len())`; the `data[0]` access panics on empty
input, modelled by `List.head?`. -/
def mapFromLines (conv : Char → Option T) (lines : List String) : Option (Map2D T) :=
  match convertData conv lines with
  | none => none
  | some data =>
    match data.head? with
    | none => none
    | some firstRow => some ⟨data, ⟨firstRow.length, data.length⟩⟩

/-- The grid of the spec's concrete scenario, one text row `AAB`. -/
def aabMap : Map2D Char :=
  ⟨[['A', 'A', 'B']], ⟨3, 1⟩⟩

/-- A uniform 2 x 1 grid. -/
def aaMap : Map2D Char :=
  ⟨[['A', 'A']], ⟨2, 1⟩⟩

/-- A 1 x 1 grid. -/
def unitMap : Map2D Char :=
  ⟨[['A']], ⟨1, 1⟩⟩

omit [DecidableEq T] in
/-- C10: constructing a `Map2D` from zero lines fails (the source panics
when it derives the bounds from `data[0]`), instead of producing a map with
`Bounds(0,0)`. -/
theorem mapFromLines_empty_fails (conv : Char → Option T) :
    mapFromLines conv [] = none := rfl

/-- C2 fails on the code: for the map built from the single line `AAB`,
the position `(1,0)` is produced both by `in_bounds` against the map's own
bounds and by `position_iter`, yet `value` indexes `data[1][0]` in a
one-row grid and panics. -/
theorem value_indexes_out_of_range :
    mapFromLines charConvert ["AAB"] = some aabMap ∧
    Position.in_bounds ⟨1, 0⟩ aabMap.bounds = some ⟨1, 0⟩ ∧
    ⟨1, 0⟩ ∈ aabMap.position_iter ∧
    aabMap.value ⟨1, 0⟩ = none := by
  decide

/-- C1 fails on the code: in the `AAB` scenario, `find('A')` panics while
evaluating `value((1,0))`, `contiguous_region((0,0))` panics while reading
the value of the neighbour `(1,0)`, and `contiguous_region((2,0))` panics
on the initial target lookup `data[2][0]`. -/
theorem aab_scenario_panics :
    mapFromLines charConvert ["AAB"] = some aabMap ∧
    aabMap.find 'A' = none ∧
    aabMap.contiguous_region ⟨0, 0⟩ = BfsOut.indexErr ∧
    aabMap.contiguous_region ⟨2, 0⟩ = BfsOut.indexErr := by
  decide

/-- C7 fails on the code: on the uniform 2 x 1 grid `AA`,
`contiguous_region((0,0))` panics reading the neighbour value `data[1][0]`
instead of returning both positions. -/
theorem uniform_region_panics :
    mapFromLines charConvert ["AA"] = some aaMap ∧
    aaMap.contiguous_region ⟨0, 0⟩ = BfsOut.indexErr := by
  decide


omit [DecidableEq T] in
/-- A line containing a character the converter rejects makes the whole line
conversion abort. -/
theorem convertLine_none_of_bad (conv : Char → Option T) :
    ∀ cs : List Char, (∃ c ∈ cs, conv c = none) → convertLine conv cs = none := by
  intro cs
  induction cs with
  | nil => rintro ⟨c, hc, _⟩; cases hc
  | cons c cs ih =>
    rintro ⟨d, hd, hbad⟩
    rcases List.mem_cons.1 hd with rfl | hmem
    · simp [convertLine, hbad]
    · unfold convertLine
      cases hconv : conv c with
      | none => rfl
      | some v => rw [ih ⟨d, hmem, hbad⟩]

omit [DecidableEq T] in
/-- A line whose characters all convert succeeds as a whole. -/
theorem convertLine_isSome_of_good (conv : Char → Option T) :
    ∀ cs : List Char, (∀ c ∈ cs, (conv c).isSome) → (convertLine conv cs).isSome := by
  intro cs
  induction cs with
  | nil => intro _; rfl
  | cons c cs ih =>
    intro hall
    unfold convertLine
    cases hconv : conv c with
    | none =>
      have hmem := hall c (List.mem_cons_self c cs)
      rw [hconv] at hmem
      cases hmem
    | some v =>
      have hrec := ih fun d hd => hall d (List.mem_cons_of_mem c hd)
      cases hrest : convertLine conv cs with
      | none => rw [hrest] at hrec; cases hrec
      | some l => rfl

omit [DecidableEq T] in
/-- A failing line conversion aborts the whole grid conversion. -/
theorem convertData_none_of_bad (conv : Char → Option T) :
    ∀ lines : List String, (∃ l ∈ lines, convertLine conv l.toList = none) →
      convertData conv lines = none := by
  intro lines
  induction lines with
  | nil => rintro ⟨l, hl, _⟩; cases hl
  | cons line rest ih =>
    rintro ⟨l, hl, hbad⟩
    unfold convertData
    rcases List.mem_cons.1 hl with rfl | hmem
    · rw [hbad]
    · cases hline : convertLine conv line.toList with
      | none => rfl
      | some row => rw [ih ⟨l, hmem, hbad⟩]

omit [DecidableEq T] in
/-- If every line converts, the whole grid conversion succeeds. -/
theorem convertData_isSome_of_good (conv : Char → Option T) :
    ∀ lines : List String, (∀ l ∈ lines, (convertLine conv l.toList).isSome) →
      (convertData conv lines).isSome := by
  intro lines
  induction lines with
  | nil => intro _; rfl
  | cons line rest ih =>
    intro hall
    unfold convertData
    have hline := hall line (List.mem_cons_self line rest)
    cases hl : convertLine conv line.toList with
    | none => rw [hl] at hline; cases hline
    | some row =>
      have hrest := ih fun l hm => hall l (List.mem_cons_of_mem line hm)
      cases hr : convertData conv rest with
      | none => rw [hr] at hrest; cases hrest
      | some rows => rfl

/-- C9: constructing a numeric (`u32`) map from lines containing any
non-digit character fails hard (the conversion panic aborts construction),
while lines made only of decimal digits never trigger a conversion
failure. -/
theorem u32_conversion_failure (lines : List String) :
    ((∃ l ∈ lines, ∃ c ∈ l.toList, ¬ c.isDigit) → mapFromLines u32Convert lines = none) ∧
    ((∀ l ∈ lines, ∀ c ∈ l.toList, c.isDigit) → (convertData u32Convert lines).isSome) := by
  constructor
  · rintro ⟨l, hl, c, hc, hbad⟩
    have hdata : convertData u32Convert lines = none :=
      convertData_none_of_bad u32Convert lines
        ⟨l, hl, convertLine_none_of_bad u32Convert l.toList
          ⟨c, hc, by simp [u32Convert, hbad]⟩⟩
    rw [mapFromLines, hdata]
  · intro hall
    exact convertData_isSome_of_good u32Convert lines fun l hl =>
      convertLine_isSome_of_good u32Convert l.toList fun c hc => by
        simp [u32Convert, hall l hl c hc]

/-- Witness for C9: a line with the non-digit `a` aborts construction, and an
all-digit input converts without failure. -/
theorem u32_conversion_failure_witness :
    mapFromLines u32Convert ["12", "3a"] = none ∧
    (convertData u32Convert ["12", "34"]).isSome :=
  ⟨(u32_conversion_failure ["12", "3a"]).1
      ⟨"3a", by decide, 'a', by decide, by decide⟩,
   (u32_conversion_failure ["12", "34"]).2 (by decide)⟩

/-- All positions valid for the given bounds. -/
def allPos (b : Bounds) : Finset ValidPosition :=
  (Finset.range b.w ×ˢ Finset.range b.h).image fun q => ⟨q.1, q.2⟩

/-- Membership in `allPos` is exactly the bounds invariant. -/
theorem mem_allPos (b : Bounds) (q : ValidPosition) :
    q ∈ allPos b ↔ q.x < b.w ∧ q.y < b.h := by
  obtain ⟨qx, qy⟩ := q
  simp only [allPos, Finset.mem_image, Finset.mem_product, Finset.mem_range,
    ValidPosition.mk.injEq]
  constructor
  · rintro ⟨⟨a1, a2⟩, ⟨h1, h2⟩, rfl, rfl⟩
    exact ⟨h1, h2⟩
  · rintro ⟨h1, h2⟩
    exact ⟨⟨qx, qy⟩, ⟨h1, h2⟩, rfl, rfl⟩

/-- There are exactly `w * h` valid positions. -/
theorem card_allPos (b : Bounds) : (allPos b).card = b.w * b.h := by
  rw [allPos, Finset.card_image_of_injective _ ?_, Finset.card_product,
    Finset.card_range, Finset.card_range]
  rintro ⟨a1, a2⟩ ⟨b1, b2⟩ hab
  simp only [ValidPosition.mk.injEq] at hab
  simp [Prod.ext_iff, hab.1, hab.2]

/-- The neighbour list has at most four entries. -/
theorem validNeighboursList_length_le (p : ValidPosition) (b : Bounds) :
    (validNeighboursList p b).length ≤ 4 := by
  refine le_trans (List.length_filterMap_le _ _) ?_
  simp [Position.neighbours]

/-- Every entry of the neighbour list passed a bounds check. -/
theorem validNeighboursList_mem_allPos (p : ValidPosition) (b : Bounds)
    (q : ValidPosition) (hq : q ∈ validNeighboursList p b) : q ∈ allPos b := by
  rw [validNeighboursList, List.mem_filterMap] at hq
  obtain ⟨n, _, hb⟩ := hq
  obtain ⟨nx, ny⟩ := n
  obtain ⟨qx, qy⟩ := q
  rw [in_bounds_some_iff] at hb
  rw [mem_allPos]
  dsimp only
  omega

/-- The neighbours enqueued by one expansion come from the neighbour list. -/
theorem collectEqual_subset (m : Map2D T) (target : T) :
    ∀ qs ns : List ValidPosition, collectEqual m target qs = some ns →
      ∀ q ∈ ns, q ∈ qs := by
  intro qs
  induction qs with
  | nil =>
    intro ns h
    unfold collectEqual at h
    cases h
    intro q hq
    cases hq
  | cons a qs ih =>
    intro ns h
    unfold collectEqual at h
    cases hv : m.value a with
    | none => rw [hv] at h; cases h
    | some v =>
      rw [hv] at h
      cases hrec : collectEqual m target qs with
      | none => rw [hrec] at h; cases h
      | some l =>
        rw [hrec] at h
        cases h
        intro q hq
        by_cases hva : v = target
        · rw [if_pos hva] at hq
          rcases List.mem_cons.1 hq with rfl | hmem
          · exact List.mem_cons_self _ _
          · exact List.mem_cons_of_mem _ (ih l hrec q hmem)
        · rw [if_neg hva] at hq
          exact List.mem_cons_of_mem _ (ih l hrec q hq)

/-- One expansion enqueues at most as many positions as it inspects. -/
theorem collectEqual_length_le (m : Map2D T) (target : T) :
    ∀ qs ns : List ValidPosition, collectEqual m target qs = some ns →
      ns.length ≤ qs.length := by
  intro qs
  induction qs with
  | nil =>
    intro ns h
    unfold collectEqual at h
    cases h
    exact Nat.le_refl 0
  | cons a qs ih =>
    intro ns h
    unfold collectEqual at h
    cases hv : m.value a with
    | none => rw [hv] at h; cases h
    | some v =>
      rw [hv] at h
      cases hrec : collectEqual m target qs with
      | none => rw [hrec] at h; cases h
      | some l =>
        rw [hrec] at h
        cases h
        have := ih l hrec
        by_cases hva : v = target
        · rw [if_pos hva]
          simpa using Nat.succ_le_succ this
        · rw [if_neg hva]
          simp only [List.length_cons]
          omega

/-- Core invariant of the search loop: with a step budget covering one pop
per queue entry plus four pushes for each not-yet-visited position, the loop
never exhausts its budget, and the number of expansions it performs is
bounded by the number of unvisited positions (each expansion moves one new
position into the duplicate-free visited list). -/
theorem bfsAux_bounded (m : Map2D T) (target : T) :
    ∀ (fuel : Nat) (visited queue : List ValidPosition) (exp : Nat),
      (∀ q ∈ queue, q ∈ allPos m.bounds) →
      queue.length + 4 * (allPos m.bounds \ visited.toFinset).card + 1 ≤ fuel →
      bfsAux m target fuel visited queue exp ≠ BfsOut.fuelOut ∧
      (∀ v k, bfsAux m target fuel visited queue exp = BfsOut.done v k →
        k ≤ exp + (allPos m.bounds \ visited.toFinset).card ∧
          (visited.Nodup → v.Nodup)) := by
  intro fuel
  induction fuel with
  | zero =>
    intro visited queue exp _ hf
    exact absurd hf (by omega)
  | succ fuel ih =>
    intro visited queue exp hq hf
    cases queue with
    | nil =>
      simp only [bfsAux]
      refine ⟨fun h => BfsOut.noConfusion h, ?_⟩
      intro v k hdone
      cases hdone
      exact ⟨Nat.le_add_right _ _, fun hn => hn⟩
    | cons p rest =>
      by_cases hp : p ∈ visited
      · have hstep : bfsAux m target (fuel + 1) visited (p :: rest) exp =
            bfsAux m target fuel visited rest exp := by
          simp [bfsAux, hp]
        rw [hstep]
        apply ih
        · exact fun q hqm => hq q (List.mem_cons_of_mem p hqm)
        · simp only [List.length_cons] at hf
          omega
      · cases hcol : collectEqual m target (validNeighboursList p m.bounds) with
        | none =>
          have hstep : bfsAux m target (fuel + 1) visited (p :: rest) exp =
              BfsOut.indexErr := by
            simp [bfsAux, hp, hcol]
          rw [hstep]
          exact ⟨fun h => BfsOut.noConfusion h, fun v k h => BfsOut.noConfusion h⟩
        | some ns =>
          have hstep : bfsAux m target (fuel + 1) visited (p :: rest) exp =
              bfsAux m target fuel (p :: visited) (rest ++ ns) (exp + 1) := by
            simp [bfsAux, hp, hcol]
          have hpA : p ∈ allPos m.bounds := hq p (List.mem_cons_self p rest)
          have hpv : p ∉ visited.toFinset := by
            rw [List.mem_toFinset]
            exact hp
          have hNsub : ∀ q ∈ ns, q ∈ allPos m.bounds := fun q hqn =>
            validNeighboursList_mem_allPos p m.bounds q
              (collectEqual_subset m target _ ns hcol q hqn)
          have hNlen : ns.length ≤ 4 :=
            le_trans (collectEqual_length_le m target _ ns hcol)
              (validNeighboursList_length_le p m.bounds)
          have hdiff : allPos m.bounds \ (p :: visited).toFinset =
              (allPos m.bounds \ visited.toFinset).erase p := by
            ext q
            simp only [Finset.mem_sdiff, Finset.mem_erase, List.toFinset_cons,
              Finset.mem_insert]
            tauto
          have hmemdiff : p ∈ allPos m.bounds \ visited.toFinset :=
            Finset.mem_sdiff.2 ⟨hpA, hpv⟩
          have hcard : ((allPos m.bounds \ visited.toFinset).erase p).card + 1 =
              (allPos m.bounds \ visited.toFinset).card := by
            rw [Finset.card_erase_of_mem hmemdiff]
            have hpos := Finset.card_pos.2 ⟨p, hmemdiff⟩
            omega
          rw [hstep]
          have hq2 : ∀ q ∈ rest ++ ns, q ∈ allPos m.bounds := by
            intro q hqm
            rcases List.mem_append.1 hqm with hr | hn
            · exact hq q (List.mem_cons_of_mem p hr)
            · exact hNsub q hn
          have hf2 : (rest ++ ns).length +
              4 * (allPos m.bounds \ (p :: visited).toFinset).card + 1 ≤ fuel := by
            rw [hdiff]
            simp only [List.length_append, List.length_cons] at hf ⊢
            omega
          obtain ⟨hne, hdone⟩ := ih (p :: visited) (rest ++ ns) (exp + 1) hq2 hf2
          refine ⟨hne, ?_⟩
          intro v k hk
          obtain ⟨hkle, hnod⟩ := hdone v k hk
          rw [hdiff] at hkle
          constructor
          · omega
          · intro hvnod
            exact hnod (List.nodup_cons.2 ⟨hp, hvnod⟩)

/-- C8: for a valid start position, `contiguous_region` terminates — the
explicit budget `bfsFuel`, or any larger one, is never exhausted — and when
it completes, its visited list is duplicate-free (each grid position is
expanded at most once) and the number of expansions is at most `w * h`. -/
theorem contiguous_region_terminates (m : Map2D T) (start : ValidPosition)
    (hs : start ∈ allPos m.bounds) :
    m.contiguous_region start ≠ BfsOut.fuelOut ∧
    (∀ v k, m.contiguous_region start = BfsOut.done v k →
      k ≤ m.bounds.w * m.bounds.h ∧ v.Nodup) ∧
    ∀ (target : T) (fuel : Nat), bfsFuel m.bounds ≤ fuel →
      bfsAux m target fuel [] [start] 0 ≠ BfsOut.fuelOut := by
  have key : ∀ (target : T) (fuel : Nat), bfsFuel m.bounds ≤ fuel →
      bfsAux m target fuel [] [start] 0 ≠ BfsOut.fuelOut ∧
      ∀ v k, bfsAux m target fuel [] [start] 0 = BfsOut.done v k →
        k ≤ m.bounds.w * m.bounds.h ∧ v.Nodup := by
    intro target fuel hfuel
    have hq : ∀ q ∈ [start], q ∈ allPos m.bounds := by
      intro q hqm
      rw [List.mem_singleton] at hqm
      rw [hqm]
      exact hs
    have hf : [start].length +
        4 * (allPos m.bounds \ ([] : List ValidPosition).toFinset).card + 1 ≤ fuel := by
      simp only [List.length_singleton, List.toFinset_nil, Finset.sdiff_empty]
      rw [card_allPos]
      unfold bfsFuel at hfuel
      omega
    obtain ⟨hne, hdone⟩ := bfsAux_bounded m target fuel [] [start] 0 hq hf
    refine ⟨hne, fun v k hk => ?_⟩
    obtain ⟨hkle, hnod⟩ := hdone v k hk
    constructor
    · rw [List.toFinset_nil, Finset.sdiff_empty, card_allPos] at hkle
      omega
    · exact hnod List.nodup_nil
  refine ⟨?_, ?_, fun target fuel hfle => (key target fuel hfle).1⟩
  · unfold Map2D.contiguous_region
    cases hv : m.value start with
    | none => exact fun h => BfsOut.noConfusion h
    | some target => exact (key target (bfsFuel m.bounds) (le_refl _)).1
  · unfold Map2D.contiguous_region
    cases hv : m.value start with
    | none => exact fun v k h => BfsOut.noConfusion h
    | some target => exact fun v k h => (key target (bfsFuel m.bounds) (le_refl _)).2 v k h

/-- Witness for C8 on a concrete 1 x 1 grid. -/
theorem contiguous_region_terminates_witness :
    unitMap.contiguous_region ⟨0, 0⟩ ≠ BfsOut.fuelOut :=
  (contiguous_region_terminates unitMap ⟨0, 0⟩ (by decide)).1
